import Mathlib

/-!
Verification development for the restic repository storage engine and its
`ls` command front-end.

The only Go source available in this excerpt is `cmd/restic/cmd_ls.go`;
its control flow (argument validation, index loading, snapshot walking and
directory filtering) is embedded directly from that file.  The storage
engine itself (repository, pack codec, index, lock manager, chunker,
crypto layer) is present only through its specification, so those parts
are modelled from the spec, as marked in the doc comment of each such
definition.
-/

namespace ResticSpec

/-! ## Go path handling (`path/filepath`, `strings`), Unix separator

`cmd_ls.go` filters nodes with `filepath.Dir` and `strings.HasPrefix`.
These are faithful embeddings of the Go standard library semantics for
Unix paths (separator `/`, no volume names). -/

/-- Split a character list on `/`, Go `strings.Split` style: the empty
input yields one empty element, and every separator starts a new
element. -/
def splitSlash : List Char → List (List Char)
  | [] => [[]]
  | c :: rest =>
    let r := splitSlash rest
    if c = '/' then [] :: r
    else
      match r with
      | [] => [[c]]
      | s :: ss => (c :: s) :: ss

/-- One step of Go `filepath.Clean`'s element processing: `stack` holds the
already-emitted path elements in reverse order; empty and `.` elements are
dropped, `..` pops a non-`..` element (or is kept when unrooted at the
top, or dropped when rooted at the top), and ordinary elements are pushed. -/
def cleanLoop (rooted : Bool) : List (List Char) → List (List Char) → List (List Char)
  | stack, [] => stack.reverse
  | stack, e :: rest =>
    if e = [] ∨ e = ['.'] then cleanLoop rooted stack rest
    else if e = ['.', '.'] then
      match stack with
      | top :: stack2 =>
        if top = ['.', '.'] then cleanLoop rooted (['.', '.'] :: top :: stack2) rest
        else cleanLoop rooted stack2 rest
      | [] =>
        if rooted then cleanLoop rooted [] rest
        else cleanLoop rooted [['.', '.']] rest
    else cleanLoop rooted (e :: stack) rest

/-- Go `filepath.Clean` for Unix paths, on character lists: shortest
lexically-equivalent path.  Empty input yields `"."`; duplicate
separators, `.` and `..` elements are resolved; a rooted path stays
rooted. -/
def pathCleanL (p : List Char) : List Char :=
  if p = [] then ['.']
  else
    let rooted : Bool := p.head? = some '/'
    let parts := cleanLoop rooted [] (splitSlash p)
    let out := (if rooted then ['/'] else []) ++ (parts.intersperse ['/']).flatten
    if out = [] then ['.'] else out

/-- Go `filepath.Clean` for Unix paths. -/
def pathClean (p : String) : String :=
  String.mk (pathCleanL p.toList)

/-- Go `filepath.Dir` for Unix paths: everything up to and including the
final separator, then cleaned; a path without a separator yields `"."`. -/
def pathDir (p : String) : String :=
  String.mk (pathCleanL ((p.toList.reverse.dropWhile (fun c => c ≠ '/')).reverse))

/-- Go `strings.HasPrefix s prefix`. -/
def goHasPrefix (s pre : String) : Bool :=
  pre.toList.isPrefixOf s.toList

/-! ## Embedding of `runLs` (`cmd/restic/cmd_ls.go`) -/

/-- A tree node as far as `runLs` observes it: the walker hands the
callback a path and a node record; only its presence matters here. -/
structure Node where
  name : String
deriving DecidableEq, Repr

/-- `LsOptions` from `cmd_ls.go`. -/
structure LsOptionsL where
  listLong : Bool
  host : String
  tags : List String
  paths : List String
  recursive : Bool
deriving DecidableEq, Repr

/-- The distinct fatal outcomes `runLs` can produce. -/
inductive LsFatal
  | invalidArguments
  | openRepoFailed
  | loadIndexFailed
  | walkError
deriving DecidableEq, Repr

/-- Observable events of a `runLs` execution, in program order. -/
inductive LsEvent
  | openRepo
  | loadIndex (ok : Bool)
  | acquireLock
  | walkTree
  | printLine (s : String)
deriving DecidableEq, Repr

/-- Modelled from the spec: `formatNode` (human-readable formatting) is out
of scope (§1); only which lines are emitted matters, so the formatted line
is represented by the node path. -/
def formatNode (nodepath : String) (_node : Node) (_long : Bool) : String :=
  nodepath

/-- The walk callback closure of `runLs` (`cmd_ls.go` lines 74–109):
given the node path, the node (or `none`) and an incoming walk error,
returns `(ignore, error, printed lines)` exactly as the Go closure
returns `(bool, error)` around its `Printf`. -/
def lsWalkFunc (recursive : Bool) (dirs : List String) (long : Bool)
    (nodepath : String) (node : Option Node) (err : Option String) :
    Bool × Option String × List String :=
  match err with
  | some e => (false, some e, [])
  | none =>
    match node with
    | none => (false, none, [])
    | some n =>
      if dirs ≠ [] then
        let nodeDir := if ¬recursive then pathDir nodepath else ""
        let matched := dirs.any (fun dir =>
          if recursive then goHasPrefix nodepath dir else nodeDir = dir)
        if ¬matched then (true, none, [])
        else (false, none, [formatNode nodepath n long])
      else (false, none, [formatNode nodepath n long])

/-- One walker visit: node path, node (if any) and walker error (if any). -/
abbrev LsVisit := String × Option Node × Option String

/-- `walker.Walk` as `runLs` observes it: the callback is applied to each
visit in order; a callback error aborts the walk and is returned.  The
subtree-skipping effect of the `ignore` result is absorbed into the
environment-chosen visit sequence. -/
def runWalk (recursive : Bool) (dirs : List String) (long : Bool) :
    List LsVisit → Option String × List String
  | [] => (none, [])
  | v :: rest =>
    let res := lsWalkFunc recursive dirs long v.1 v.2.1 v.2.2
    match res.2.1 with
    | some err => (some err, res.2.2)
    | none =>
      let tl := runWalk recursive dirs long rest
      (tl.1, res.2.2 ++ tl.2)

/-- Environment a `runLs` execution runs against: whether opening the
repository and loading the index succeed, and the walker visit sequence
of each filtered snapshot. -/
structure LsEnv where
  openRepoOk : Bool
  loadIndexOk : Bool
  snapshots : List (List LsVisit)

/-- The per-snapshot loop body of `runLs`: walk each snapshot's tree,
emitting a walk event and the printed lines; a walk error stops the loop
(`if err != nil { return err }`). -/
def runSnaps (recursive : Bool) (dirs : List String) (long : Bool) :
    List (List LsVisit) → Except LsFatal Unit × List LsEvent
  | [] => (.ok (), [])
  | vs :: rest =>
    let w := runWalk recursive dirs long vs
    let evs := LsEvent.walkTree :: w.2.map LsEvent.printLine
    match w.1 with
    | some _ => (.error .walkError, evs)
    | none =>
      let tl := runSnaps recursive dirs long rest
      (tl.1, evs ++ tl.2)

/-- `runLs` (`cmd_ls.go` lines 52–116): validate arguments, open the
repository, load the index, then walk each filtered snapshot with the
directory-filter callback.  Returns the result together with the ordered
trace of observable events. -/
def runLs (opts : LsOptionsL) (env : LsEnv) (args : List String) :
    Except LsFatal Unit × List LsEvent :=
  if args = [] ∧ opts.host = "" ∧ opts.tags = [] ∧ opts.paths = [] then
    (.error .invalidArguments, [])
  else if env.openRepoOk = false then
    (.error .openRepoFailed, [.openRepo])
  else if env.loadIndexOk = false then
    (.error .loadIndexFailed, [.openRepo, .loadIndex false])
  else
    let out := runSnaps opts.recursive (args.drop 1) opts.listLong env.snapshots
    (out.1, LsEvent.openRepo :: LsEvent.loadIndex true :: out.2)

/-! ## Storage engine model

The repository storage engine (spec §3–§4.4) is not part of the available
source excerpt, so it is modelled from the spec.  Byte strings are lists
of naturals; well-formed contents have all entries below 256. -/

/-- Modelled from the spec (§3 Blob): the blob type tag. -/
inductive BlobType
  | data
  | tree
  | lockMeta
deriving DecidableEq, Repr

/-- On-the-wire code of a blob type, used in pack headers. -/
def typeCode : BlobType → Nat
  | .data => 0
  | .tree => 1
  | .lockMeta => 2

/-- Inverse of `typeCode`; unknown codes fail. -/
def codeType : Nat → Option BlobType
  | 0 => some .data
  | 1 => some .tree
  | 2 => some .lockMeta
  | _ => none

/-- Modelled from the spec (§3): the blob ID is a cryptographic digest of
the plaintext, assumed collision-free; the digest is modelled as the
base-256 value of the byte string with a leading 1 digit, which is
injective on byte strings. -/
def idOf (c : List Nat) : Nat :=
  c.foldr (fun b a => a * 256 + b) 1

/-- Modelled from the spec (§4.6 Crypto Layer): authenticated encryption of
one blob.  Confidentiality is not observable in the model, so the
ciphertext carries the plaintext followed by an authentication tag; the
tag is the idealised MAC of the plaintext. -/
def encryptBlob (c : List Nat) : List Nat :=
  c ++ [c.sum]

/-- Modelled from the spec (§4.6): authenticated decryption; returns `none`
exactly when the authentication tag fails to verify. -/
def decryptBlob (bs : List Nat) : Option (List Nat) :=
  match bs.getLast? with
  | none => none
  | some tag => if bs.dropLast.sum = tag then some bs.dropLast else none

/-- A pack header entry (§6): blob ID, type, offset, length. -/
structure HeaderEntry where
  id : Nat
  btype : BlobType
  offset : Nat
  length : Nat
deriving DecidableEq, Repr

/-- An index entry (§3): (blob ID, type) → (pack ID, offset, length). -/
structure IndexEntry where
  id : Nat
  btype : BlobType
  packId : Nat
  offset : Nat
  length : Nat
deriving DecidableEq, Repr

/-- View a header entry of a given pack as an index entry. -/
def HeaderEntry.withPack (e : HeaderEntry) (pid : Nat) : IndexEntry :=
  ⟨e.id, e.btype, pid, e.offset, e.length⟩

/-- Serialized form of one header entry: four cells. -/
def entryCells (e : HeaderEntry) : List Nat :=
  [e.id, typeCode e.btype, e.offset, e.length]

/-- Serialized pack header: concatenated entry cells. -/
def headerCells (es : List HeaderEntry) : List Nat :=
  (es.map entryCells).flatten

/-- Parse a serialized pack header back into its entries; fails on a
length that is not a multiple of four or an unknown type code. -/
def parseHeader : List Nat → Option (List HeaderEntry)
  | [] => some []
  | i :: tc :: off :: len :: rest =>
    match codeType tc, parseHeader rest with
    | some t, some es => some (⟨i, t, off, len⟩ :: es)
    | _, _ => none
  | _ => none

/-- Modelled from the spec (§4.2 Pack Codec, §6 layout): a sealed pack
object is the concatenated encrypted blobs, then the header with its own
authentication tag, then the header length, then the pack-level
authentication tag over everything before it. -/
def sealPack (data : List Nat) (es : List HeaderEntry) : List Nat :=
  let h := headerCells es
  let body := data ++ h ++ [h.sum, h.length]
  body ++ [body.sum]

/-- Pack decoding failures (§4.2): a failed tag is an integrity error. -/
inductive PackError
  | truncated
  | authFailure
  | malformedHeader
deriving DecidableEq, Repr

/-- Modelled from the spec (§4.2): decode a pack object — verify the
pack-level tag, locate the header from the trailing length cell, verify
the header tag, and parse the entries.  Any tag mismatch is an
`authFailure`; decoding is a pure function, so a failure is final and
never retried. -/
def decodePack (obj : List Nat) : Except PackError (List HeaderEntry × List Nat) :=
  match obj.getLast? with
  | none => .error .truncated
  | some packTag =>
    let body := obj.dropLast
    if packTag ≠ body.sum then .error .authFailure
    else
      match body.getLast? with
      | none => .error .truncated
      | some hlen =>
        let rest := body.dropLast
        match rest.getLast? with
        | none => .error .truncated
        | some htag =>
          let pre := rest.dropLast
          if pre.length < hlen then .error .truncated
          else
            let h := pre.drop (pre.length - hlen)
            if htag ≠ h.sum then .error .authFailure
            else
              match parseHeader h with
              | none => .error .malformedHeader
              | some es => .ok (es, pre.take (pre.length - hlen))

/-- A single-bit modification of a stored object: flip bit `k` of the
byte at position `i`. -/
def flipBit (bs : List Nat) (i k : Nat) : List Nat :=
  bs.set i (bs.getD i 0 ^^^ 2 ^ k)

/-- Modelled from the spec (§4.3, §4.4): the repository session state —
sealed backend pack objects, the currently open pack (ciphertext cells
and pending header entries), the pack size target, and the in-memory
index (which, per §4.4, already records blobs of the open pack at the
pack ID the open pack will receive when sealed). -/
structure Repo where
  target : Nat
  sealed : List (List Nat)
  openData : List Nat
  openEntries : List HeaderEntry
  index : List IndexEntry
deriving DecidableEq, Repr

/-- A fresh session against an empty backend. -/
def emptyRepo (target : Nat) : Repo :=
  ⟨target, [], [], [], []⟩

/-- Index lookup by (type, ID) — the dedup check of §4.4. -/
def Repo.lookup (r : Repo) (t : BlobType) (id : Nat) : Option IndexEntry :=
  r.index.find? (fun e => decide (e.id = id ∧ e.btype = t))

/-- Modelled from the spec (§4.4): seal the open pack — encode it with its
header and flush it to the backend as one object; a no-op when the open
pack is empty. -/
def Repo.sealOpen (r : Repo) : Repo :=
  if r.openEntries.isEmpty then r
  else
    { r with
      sealed := r.sealed ++ [sealPack r.openData r.openEntries]
      openData := []
      openEntries := [] }

/-- Modelled from the spec (§4.4 Write): compute the content ID; on a
dedup hit return the existing ID with no bytes written and no pack
touched; otherwise encrypt, append to the open pack, record the mapping
in the in-memory index, and seal the pack once it reaches the size
target. -/
def Repo.write (r : Repo) (t : BlobType) (c : List Nat) : Nat × Repo :=
  let id := idOf c
  match r.lookup t id with
  | some _ => (id, r)
  | none =>
    let cipher := encryptBlob c
    let he : HeaderEntry := ⟨id, t, r.openData.length, cipher.length⟩
    let ie : IndexEntry := ⟨id, t, r.sealed.length, r.openData.length, cipher.length⟩
    let r2 : Repo :=
      { r with
        openData := r.openData ++ cipher
        openEntries := r.openEntries ++ [he]
        index := r.index ++ [ie] }
    if r.target ≤ r2.openData.length then (id, r2.sealOpen) else (id, r2)

/-- Read failures (§4.4): missing entries and integrity failures. -/
inductive ReadError
  | notFound
  | authFailure
deriving DecidableEq, Repr

/-- A byte-range read against the pack a location refers to: a sealed
backend object, or the open pack's buffered bytes. -/
def Repo.rangeRead (r : Repo) (packId offset length : Nat) : Option (List Nat) :=
  if packId < r.sealed.length then
    some (((r.sealed.getD packId []).drop offset).take length)
  else if packId = r.sealed.length then
    some ((r.openData.drop offset).take length)
  else none

/-- Modelled from the spec (§4.4 Read): look up the location in the index
(absent means `notFound`), range-read the pack, decrypt and verify; an
authentication failure is a fatal integrity error. -/
def Repo.read (r : Repo) (t : BlobType) (id : Nat) : Except ReadError (List Nat) :=
  match r.lookup t id with
  | none => .error .notFound
  | some e =>
    match r.rangeRead e.packId e.offset e.length with
    | none => .error .notFound
    | some cipher =>
      match decryptBlob cipher with
      | none => .error .authFailure
      | some c => .ok c

/-- Modelled from the spec (§4.3): full index rebuild — decode every pack
header in backend order, starting at pack ID `pid`. -/
def rebuildFrom (pid : Nat) : List (List Nat) → Option (List IndexEntry)
  | [] => some []
  | obj :: rest =>
    match decodePack obj with
    | .error _ => none
    | .ok (es, _) =>
      match rebuildFrom (pid + 1) rest with
      | none => none
      | some tl => some (es.map (fun e => e.withPack pid) ++ tl)

/-- Modelled from the spec (§4.3): rebuild the whole index from the pack
headers alone. -/
def rebuildIndex (sealed : List (List Nat)) : Option (List IndexEntry) :=
  rebuildFrom 0 sealed

/-- Validity of one index entry in a repository state: its range read
succeeds, decrypts, and yields a byte string whose digest is the entry's
ID. -/
def entryOk (r : Repo) (e : IndexEntry) : Bool :=
  match r.rangeRead e.packId e.offset e.length with
  | none => false
  | some cipher =>
    match decryptBlob cipher with
    | none => false
    | some c => idOf c == e.id && c.all (fun b => b < 256)

/-- Well-formedness of a repository state: every index entry is valid,
the sealed part of the index is exactly what a rebuild from the sealed
pack headers produces, and the tail of the index is the open pack's
pending entries at the next pack ID. -/
def Repo.WF (r : Repo) : Prop :=
  (∀ e ∈ r.index, entryOk r e = true)
  ∧ rebuildIndex r.sealed = some (r.index.take (r.index.length - r.openEntries.length))
  ∧ r.index.drop (r.index.length - r.openEntries.length)
      = r.openEntries.map (fun he => he.withPack r.sealed.length)

instance (r : Repo) : Decidable r.WF := by
  unfold Repo.WF; infer_instance

/-! ## Lock manager model (spec §4.5) -/

/-- Modelled from the spec (§6 lock object schema): `{creationTime,
exclusive, hostname, username, processID, lockID}`; host, user, process
and lock identities are modelled as numbers. -/
structure Lock where
  time : Nat
  exclusive : Bool
  hostname : Nat
  username : Nat
  processID : Nat
  lockID : Nat
deriving DecidableEq, Repr

/-- Serialized lock object: six cells, the exclusivity flag as 0/1. -/
def serializeLock (lk : Lock) : List Nat :=
  [lk.time, if lk.exclusive then 1 else 0, lk.hostname, lk.username,
   lk.processID, lk.lockID]

/-- Parse a lock object; anything but a six-cell record with a 0/1
exclusivity flag is unreadable. -/
def parseLock : List Nat → Option Lock
  | [t, e, h, u, p, l] =>
    if e = 0 then some ⟨t, false, h, u, p, l⟩
    else if e = 1 then some ⟨t, true, h, u, p, l⟩
    else none
  | _ => none

/-- Lock acquisition failures (§4.5, §7): an unreadable (non-empty,
unparsable) lock object, or a conflict with a live lock. -/
inductive LockError
  | unreadableLock
  | conflict (other : Lock)
deriving DecidableEq, Repr

/-- Modelled from the spec (§4.5 Acquire): read every existing lock
object; a zero-length object is treated as if the lock did not exist at
all; a non-empty object that fails to parse is a fatal unreadable-lock
error. -/
def collectLocks : List (List Nat) → Except LockError (List Lock)
  | [] => .ok []
  | obj :: rest =>
    if obj.isEmpty then collectLocks rest
    else
      match parseLock obj with
      | none => .error .unreadableLock
      | some lk =>
        match collectLocks rest with
        | .error e => .error e
        | .ok ls => .ok (lk :: ls)

/-- A parsed lock is fresh when its age is within the staleness
threshold; older locks are stale and ignored for conflict purposes. -/
def isFresh (now staleAge : Nat) (lk : Lock) : Bool :=
  now - lk.time ≤ staleAge

/-- An exclusive request conflicts with any live lock; a shared request
conflicts only with a live exclusive lock. -/
def conflictsWith (excl : Bool) (lk : Lock) : Bool :=
  excl || lk.exclusive

/-- Modelled from the spec (§4.5 Acquire): collect the existing lock
objects, drop stale locks, and fail with a conflict naming the first
conflicting live lock; otherwise write the new lock object.  Returns the
outcome and the resulting backend lock-object set: on any failure nothing
is written and nothing is deleted.  The post-write re-read race check of
§4.5 is omitted: with no concurrent writer it re-observes the same set
plus the just-written lock, which is excluded as one's own by lock ID. -/
def acquireLock (objs : List (List Nat)) (now staleAge : Nat) (newLock : Lock) :
    Except LockError Lock × List (List Nat) :=
  match collectLocks objs with
  | .error e => (.error e, objs)
  | .ok ls =>
    match (ls.filter (isFresh now staleAge)).find? (conflictsWith newLock.exclusive) with
    | some other => (.error (.conflict other), objs)
    | none => (.ok newLock, objs ++ [serializeLock newLock])

/-! ## Chunker model (spec §4.1) -/

/-- Modelled from the spec (§4.1): chunking parameters — the [min, max]
chunk size bounds, the boundary bit-mask, the sliding window width, and
the rolling hash of a window's contents (kept abstract as a function of
the window). -/
structure ChunkParams where
  minSize : Nat
  maxSize : Nat
  mask : Nat
  window : Nat
  hash : List Nat → Nat

/-- Streaming chunker state: absolute position, current chunk length, and
the current sliding-window contents. -/
structure ChunkState where
  pos : Nat
  len : Nat
  win : List Nat
deriving DecidableEq, Repr

/-- Initial chunker state at the start of a stream. -/
def chunkInit : ChunkState := ⟨0, 0, []⟩

/-- Modelled from the spec (§4.1): consume one byte.  A boundary is
emitted when the rolling hash of the window matches the bit-mask pattern
and the minimum size is reached, and is forced at the maximum size
regardless of the hash. -/
def chunkStep (p : ChunkParams) (st : ChunkState) (b : Nat) :
    ChunkState × Option Nat :=
  let win2 := (st.win ++ [b]).drop ((st.win.length + 1) - p.window)
  let len2 := st.len + 1
  let pos2 := st.pos + 1
  if p.maxSize ≤ len2 then (⟨pos2, 0, []⟩, some pos2)
  else if p.minSize ≤ len2 ∧ Nat.land (p.hash win2) p.mask = 0 then
    (⟨pos2, 0, []⟩, some pos2)
  else (⟨pos2, len2, win2⟩, none)

/-- Feed a buffer of bytes to the chunker, collecting emitted boundary
positions. -/
def feedChunk (p : ChunkParams) (st : ChunkState) :
    List Nat → ChunkState × List Nat
  | [] => (st, [])
  | b :: rest =>
    let s := chunkStep p st b
    let tl := feedChunk p s.1 rest
    (tl.1, s.2.toList ++ tl.2)

/-- One run of the chunker over a stream delivered as a sequence of
buffer segments (the lazy, restartable interface of §4.1): fold the
segments through the streaming chunker from the initial state. -/
def chunkRun (p : ChunkParams) (segments : List (List Nat)) :
    ChunkState × List Nat :=
  segments.foldl
    (fun acc seg =>
      ((feedChunk p acc.1 seg).1, acc.2 ++ (feedChunk p acc.1 seg).2))
    (chunkInit, [])

/-! ## Theorems -/

/-- Every event in a `runSnaps` trace is a walk or a print. -/
theorem runSnaps_events (recursive : Bool) (dirs : List String) (long : Bool)
    (snaps : List (List LsVisit)) :
    ∀ e ∈ (runSnaps recursive dirs long snaps).2,
      e = LsEvent.walkTree ∨ ∃ s, e = LsEvent.printLine s := by
  induction snaps with
  | nil => intro e he; simp [runSnaps] at he
  | cons vs rest ih =>
    intro e he
    simp only [runSnaps] at he
    rcases hw : (runWalk recursive dirs long vs).1 with _ | err
    · rw [hw] at he
      simp only [List.mem_append, List.mem_cons, List.mem_map] at he
      rcases he with (h | ⟨s, _, h⟩) | h
      · exact Or.inl h
      · exact Or.inr ⟨s, h.symm⟩
      · exact ih e h
    · rw [hw] at he
      simp only [List.mem_cons, List.mem_map] at he
      rcases he with h | ⟨s, _, h⟩
      · exact Or.inl h
      · exact Or.inr ⟨s, h.symm⟩

/-- C9: `runLs` fails immediately with a Fatal error, before opening the
repository, if and only if it is called with zero positional arguments
and no host, tag or path filter; otherwise its first action is to open
the repository. -/
theorem runLs_invalid_args_iff (opts : LsOptionsL) (env : LsEnv) (args : List String) :
    (runLs opts env args = (.error .invalidArguments, []) ↔
      (args = [] ∧ opts.host = "" ∧ opts.tags = [] ∧ opts.paths = []))
    ∧ (¬(args = [] ∧ opts.host = "" ∧ opts.tags = [] ∧ opts.paths = []) →
      (runLs opts env args).2.head? = some LsEvent.openRepo) := by
  by_cases h : args = [] ∧ opts.host = "" ∧ opts.tags = [] ∧ opts.paths = []
  · refine ⟨⟨fun _ => h, fun _ => ?_⟩, fun hc => absurd h hc⟩
    unfold runLs
    rw [if_pos h]
  · have hhead : (runLs opts env args).2.head? = some LsEvent.openRepo := by
      unfold runLs
      rw [if_neg h]
      by_cases h1 : env.openRepoOk = false
      · rw [if_pos h1]; rfl
      · rw [if_neg h1]
        by_cases h2 : env.loadIndexOk = false
        · rw [if_pos h2]; rfl
        · rw [if_neg h2]; rfl
    refine ⟨⟨fun heq => ?_, fun hc => absurd hc h⟩, fun _ => hhead⟩
    rw [heq] at hhead
    exact Option.noConfusion hhead

/-- C9 witness: with one positional argument the check passes and the
repository is opened first. -/
theorem runLs_invalid_args_iff_witness :
    (runLs ⟨false, "", [], [], false⟩ ⟨true, true, []⟩ ["id"]).2.head?
      = some LsEvent.openRepo :=
  (runLs_invalid_args_iff ⟨false, "", [], [], false⟩ ⟨true, true, []⟩ ["id"]).2
    (by decide)

/-- C8: in every `runLs` execution no lock is ever acquired, and every
tree-walk event in the trace is preceded by a successful index load. -/
theorem runLs_index_loaded_before_walk (opts : LsOptionsL) (env : LsEnv)
    (args : List String) :
    LsEvent.acquireLock ∉ (runLs opts env args).2
    ∧ ∀ i : Nat, (runLs opts env args).2[i]? = some LsEvent.walkTree →
        ∃ j : Nat, j < i ∧ (runLs opts env args).2[j]? = some (LsEvent.loadIndex true) := by
  unfold runLs
  by_cases h : args = [] ∧ opts.host = "" ∧ opts.tags = [] ∧ opts.paths = []
  · rw [if_pos h]
    exact ⟨by simp, by intro i hi; simp at hi⟩
  · rw [if_neg h]
    by_cases h1 : env.openRepoOk = false
    · rw [if_pos h1]
      refine ⟨by simp, fun i hi => ?_⟩
      match i with
      | 0 => simp at hi
      | n + 1 => simp at hi
    · rw [if_neg h1]
      by_cases h2 : env.loadIndexOk = false
      · rw [if_pos h2]
        refine ⟨by simp, fun i hi => ?_⟩
        match i with
        | 0 => simp at hi
        | 1 => simp at hi
        | n + 2 => simp at hi
      · rw [if_neg h2]
        have hev := runSnaps_events opts.recursive (args.drop 1) opts.listLong
          env.snapshots
        constructor
        · intro hmem
          simp only [List.mem_cons] at hmem
          rcases hmem with h' | h' | h'
          · exact LsEvent.noConfusion h'
          · exact LsEvent.noConfusion h'
          · rcases hev _ h' with h'' | ⟨s, h''⟩ <;> exact LsEvent.noConfusion h''
        · intro i hi
          match i with
          | 0 => simp at hi
          | 1 => simp at hi
          | n + 2 => exact ⟨1, by omega, by simp⟩

/-- C8 witness: a concrete execution that reaches the tree walk has the
successful index load strictly before the walk event. -/
theorem runLs_index_loaded_before_walk_witness :
    ∃ j, j < 2 ∧
      (runLs ⟨false, "", [], [], false⟩
          ⟨true, true, [[("/x", some ⟨"x"⟩, none)]]⟩ ["s"]).2[j]?
        = some (LsEvent.loadIndex true) :=
  (runLs_index_loaded_before_walk ⟨false, "", [], [], false⟩
      ⟨true, true, [[("/x", some ⟨"x"⟩, none)]]⟩ ["s"]).2 2 (by decide)

/-- C10: with directory filter arguments present, a visited node is
printed exactly when some filter dir matches it — in recursive mode a
string-prefix match on the node path, in non-recursive mode an exact
match of the node's parent directory — and non-matching nodes are
skipped (ignore result, no error, no output); in particular the prefix
match lets dir `/foo` match a path under `/foobar`. -/
theorem lsWalkFunc_dir_filter (recursive long : Bool) (dirs : List String)
    (nodepath : String) (n : Node) (hd : dirs ≠ []) :
    (lsWalkFunc recursive dirs long nodepath (some n) none =
      if dirs.any (fun dir =>
          if recursive then goHasPrefix nodepath dir
          else pathDir nodepath = dir)
      then (false, none, [formatNode nodepath n long])
      else (true, none, []))
    ∧ lsWalkFunc true ["/foo"] long "/foobar/x" (some n) none
        = (false, none, [formatNode "/foobar/x" n long]) := by
  constructor
  · show (if dirs ≠ [] then _ else _) = _
    rw [if_pos hd]
    cases recursive with
    | false =>
      by_cases hm : dirs.any (fun dir => pathDir nodepath = dir)
      · simp [hm]
      · simp [hm]
    | true =>
      by_cases hm : dirs.any (fun dir => goHasPrefix nodepath dir)
      · simp [hm]
      · simp [hm]
  · rfl

/-- C10 witness: a non-recursive filter `/a` matches a direct child
`/a/b` and prints it. -/
theorem lsWalkFunc_dir_filter_witness :
    lsWalkFunc false ["/a"] false "/a/b" (some ⟨"b"⟩) none
      = (false, none, ["/a/b"]) := by
  have h := (lsWalkFunc_dir_filter false false ["/a"] "/a/b" ⟨"b"⟩
    (by decide)).1
  rw [h]
  decide

/-- Both branches of `Repo.write` return the content digest as the ID. -/
theorem write_fst (r : Repo) (t : BlobType) (c : List Nat) :
    (r.write t c).1 = idOf c := by
  rcases h : r.lookup t (idOf c) with _ | e
  · simp only [Repo.write, h]
    split <;> rfl
  · simp only [Repo.write, h]

/-- Sealing the open pack does not change the in-memory index. -/
theorem sealOpen_index (r : Repo) : r.sealOpen.index = r.index := by
  unfold Repo.sealOpen
  split <;> rfl

/-- A lookup hit makes `Repo.write` a dedup no-op: the existing ID is
returned and the state — packs and all — is untouched. -/
theorem write_dedup_hit (r : Repo) (t : BlobType) (c : List Nat)
    (e : IndexEntry) (h : r.lookup t (idOf c) = some e) :
    r.write t c = (idOf c, r) := by
  simp only [Repo.write, h]

/-- Appending an index entry for `(id, t)` to an index without a match
makes lookups of `(id, t)` find exactly that entry. -/
theorem lookup_append_entry (idx : List IndexEntry) (t : BlobType) (id : Nat)
    (ie : IndexEntry) (hid : ie.id = id) (hbt : ie.btype = t)
    (h : idx.find? (fun e => decide (e.id = id ∧ e.btype = t)) = none) :
    (idx ++ [ie]).find? (fun e => decide (e.id = id ∧ e.btype = t))
      = some ie := by
  rw [List.find?_append, h]
  rw [@List.find?_cons_of_pos IndexEntry
    (fun e => decide (e.id = id ∧ e.btype = t)) ie [] (by simp [hid, hbt])]
  rfl

theorem lookup_after_write (r : Repo) (t : BlobType) (c : List Nat) :
    (((r.write t c).2).lookup t (idOf c)).isSome = true := by
  rcases h : r.lookup t (idOf c) with _ | e
  · have h2 := h
    rw [Repo.lookup] at h2
    have hfind := lookup_append_entry r.index t (idOf c)
      ⟨idOf c, t, r.sealed.length, r.openData.length, (encryptBlob c).length⟩
      rfl rfl h2
    simp only [Repo.write, h]
    split
    · show ((Repo.sealOpen _).lookup t (idOf c)).isSome = true
      rw [Repo.lookup, sealOpen_index]
      dsimp only
      rw [hfind]
      rfl
    · show (Repo.lookup _ t (idOf c)).isSome = true
      rw [Repo.lookup]
      dsimp only
      rw [hfind]
      rfl
  · simp only [Repo.write, h]
    rfl

/-- C2: a second Write of the same content is a pure dedup hit — it
returns the same ID as the first Write and leaves the repository state
(packs, open pack, index) completely unchanged, so no bytes are written
and no pack is touched; likewise any Write whose content is already
present in the index returns the existing ID and changes nothing. -/
theorem write_dedup_idempotent (r : Repo) (t : BlobType) (c : List Nat) :
    (∀ e, r.lookup t (idOf c) = some e → r.write t c = (idOf c, r))
    ∧ (r.write t c).2.write t c = ((r.write t c).1, (r.write t c).2) := by
  refine ⟨fun e h => write_dedup_hit r t c e h, ?_⟩
  have hs := lookup_after_write r t c
  rcases hl : ((r.write t c).2).lookup t (idOf c) with _ | e
  · rw [hl] at hs; exact Bool.noConfusion hs
  · rw [write_dedup_hit _ t c e hl, write_fst]

/-- C2 witness: a concrete repository where the second Write of `[3, 4]`
dedups against the first. -/
theorem write_dedup_idempotent_witness :
    ((emptyRepo 8).write .data [3, 4]).2.write .data [3, 4]
      = (((emptyRepo 8).write .data [3, 4]).1,
         ((emptyRepo 8).write .data [3, 4]).2) :=
  (write_dedup_idempotent (emptyRepo 8) .data [3, 4]).2

/-- Splitting a two-element tail into two single concatenations. -/
theorem append_two (l : List Nat) (a b : Nat) :
    l ++ [a, b] = (l ++ [a]) ++ [b] := by simp

/-- The type code round-trips through its parser. -/
theorem codeType_typeCode (t : BlobType) : codeType (typeCode t) = some t := by
  cases t <;> rfl

/-- Serialized pack headers parse back to exactly their entries. -/
theorem parseHeader_headerCells (es : List HeaderEntry) :
    parseHeader (headerCells es) = some es := by
  induction es with
  | nil => rfl
  | cons e es ih =>
    show parseHeader (entryCells e ++ headerCells es) = some (e :: es)
    rw [show entryCells e ++ headerCells es
        = e.id :: typeCode e.btype :: e.offset :: e.length :: headerCells es
      from rfl]
    unfold parseHeader
    rw [codeType_typeCode, ih]

/-- Decoding a sealed pack recovers exactly its header entries and its
data region. -/
theorem decode_sealPack (data : List Nat) (es : List HeaderEntry) :
    decodePack (sealPack data es) = .ok (es, data) := by
  unfold sealPack decodePack
  dsimp only
  rw [append_two, List.getLast?_concat]
  dsimp only
  rw [List.dropLast_concat]
  rw [if_neg (fun hh => hh rfl)]
  rw [List.getLast?_concat]
  dsimp only
  rw [List.dropLast_concat]
  rw [List.getLast?_concat]
  dsimp only
  rw [List.dropLast_concat]
  rw [if_neg (by simp)]
  rw [List.length_append, Nat.add_sub_cancel, List.drop_left]
  rw [if_neg (fun hh => hh rfl)]
  rw [parseHeader_headerCells]
  dsimp only
  rw [List.take_left]

/-- Replacing a list element by a different value changes the sum (over
naturals every element contributes). -/
theorem sum_set_ne (l : List Nat) (i v : Nat) (h : i < l.length)
    (hv : v ≠ l.getD i 0) : (l.set i v).sum ≠ l.sum := by
  induction l generalizing i with
  | nil => simp at h
  | cons x xs ih =>
    match i with
    | 0 =>
      simp only [List.set, List.sum_cons]
      simp only [List.getD_cons_zero] at hv
      omega
    | n + 1 =>
      simp only [List.set, List.sum_cons]
      simp only [List.getD_cons_succ] at hv
      have := ih n (by simpa using h) hv
      omega

/-- Flipping any bit of a natural number changes it. -/
theorem xor_pow_ne (a k : Nat) : a ^^^ 2 ^ k ≠ a := by
  intro h
  have h2 := congrArg (fun x => a ^^^ x) h
  simp only [Nat.xor_cancel_left, Nat.xor_self] at h2
  exact (Nat.two_pow_pos k).ne' h2

/-- Any single-bit flip in an object carrying a trailing whole-object
authentication tag makes decoding fail authentication. -/
theorem decode_tagged_tamper (body : List Nat) (i k : Nat)
    (hi : i < (body ++ [body.sum]).length) :
    decodePack (flipBit (body ++ [body.sum]) i k)
      = .error .authFailure := by
  rw [List.length_append, List.length_singleton] at hi
  by_cases hlt : i < body.length
  · have hget : (body ++ [body.sum]).getD i 0 = body.getD i 0 :=
      List.getD_append _ _ _ _ hlt
    have hset : (body ++ [body.sum]).set i (body.getD i 0 ^^^ 2 ^ k)
        = body.set i (body.getD i 0 ^^^ 2 ^ k) ++ [body.sum] :=
      List.set_append_left _ _ hlt
    rw [flipBit, hget, hset]
    unfold decodePack
    rw [List.getLast?_concat]
    dsimp only
    rw [List.dropLast_concat]
    rw [if_pos (Ne.symm (sum_set_ne body i _ hlt (xor_pow_ne _ k)))]
  · have hi2 : i = body.length := by omega
    subst hi2
    have hget : (body ++ [body.sum]).getD body.length 0 = body.sum := by
      rw [List.getD_append_right _ _ _ _ (le_refl _)]
      simp
    have hset : (body ++ [body.sum]).set body.length (body.sum ^^^ 2 ^ k)
        = body ++ [body.sum ^^^ 2 ^ k] := by
      rw [List.set_append_right _ _ (le_refl _)]
      simp
    rw [flipBit, hget, hset]
    unfold decodePack
    rw [List.getLast?_concat]
    dsimp only
    rw [List.dropLast_concat]
    rw [if_pos (xor_pow_ne body.sum k)]

/-- C5: decoding a pack after any single-bit modification of its bytes —
whether in the blob ciphertext region, the header, the header tag cell,
the length cell or the pack tag itself — fails with an authentication
error; decoding is a pure function, so the failure is final (never
retried) and no substituted plaintext is ever returned. -/
theorem decodePack_tamper (data : List Nat) (es : List HeaderEntry)
    (i k : Nat) (hi : i < (sealPack data es).length) :
    decodePack (flipBit (sealPack data es) i k)
      = .error .authFailure := by
  have hform : sealPack data es
      = (data ++ headerCells es
          ++ [(headerCells es).sum, (headerCells es).length])
        ++ [(data ++ headerCells es
          ++ [(headerCells es).sum, (headerCells es).length]).sum] := rfl
  rw [hform] at hi ⊢
  exact decode_tagged_tamper _ i k hi

/-- C5 witness: flipping bit 3 of byte 2 of a concrete two-blob pack
makes decoding fail authentication. -/
theorem decodePack_tamper_witness :
    decodePack (flipBit (sealPack [7, 8, 9]
      [⟨idOf [7], .data, 0, 2⟩, ⟨idOf [9], .tree, 2, 1⟩]) 2 3)
      = .error .authFailure :=
  decodePack_tamper [7, 8, 9]
    [⟨idOf [7], .data, 0, 2⟩, ⟨idOf [9], .tree, 2, 1⟩] 2 3 (by decide)

/-- Unfolding of the digest on a cons cell. -/
theorem idOf_cons (x : Nat) (xs : List Nat) :
    idOf (x :: xs) = idOf xs * 256 + x := rfl

/-- The digest is always positive (the leading 1 digit). -/
theorem idOf_pos (l : List Nat) : 1 ≤ idOf l := by
  induction l with
  | nil => exact le_refl 1
  | cons x xs ih => rw [idOf_cons]; omega

/-- The digest is injective on byte strings, reflecting the spec's
collision-freeness assumption for the content hash. -/
theorem idOf_inj : ∀ a b : List Nat, (∀ x ∈ a, x < 256) →
    (∀ x ∈ b, x < 256) → idOf a = idOf b → a = b := by
  intro a
  induction a with
  | nil =>
    intro b _ hb h
    cases b with
    | nil => rfl
    | cons y ys =>
      rw [show idOf ([] : List Nat) = 1 from rfl, idOf_cons] at h
      have h1 := idOf_pos ys
      have h2 := hb y (List.mem_cons_self _ _)
      omega
  | cons x xs ih =>
    intro b ha hb h
    cases b with
    | nil =>
      rw [show idOf ([] : List Nat) = 1 from rfl, idOf_cons] at h
      have h1 := idOf_pos xs
      have h2 := ha x (List.mem_cons_self _ _)
      omega
    | cons y ys =>
      rw [idOf_cons, idOf_cons] at h
      have hx := ha x (List.mem_cons_self _ _)
      have hy := hb y (List.mem_cons_self _ _)
      have h1 : x = y := by omega
      have h2 : idOf xs = idOf ys := by omega
      rw [h1, ih ys (fun z hz => ha z (List.mem_cons_of_mem _ hz))
        (fun z hz => hb z (List.mem_cons_of_mem _ hz)) h2]

/-- The crypto layer round-trips: decrypting an encrypted blob verifies
and returns the plaintext. -/
theorem decryptBlob_encryptBlob (c : List Nat) :
    decryptBlob (encryptBlob c) = some c := by
  unfold decryptBlob encryptBlob
  rw [List.getLast?_concat]
  dsimp only
  rw [List.dropLast_concat]
  rw [if_pos rfl]

/-- A list with a last element is not empty. -/
theorem isEmpty_concat {α : Type} (xs : List α) (x : α) :
    (xs ++ [x]).isEmpty = false := by
  cases xs <;> rfl

/-- Reading just past the prefix of a concatenation yields the appended
element. -/
theorem getD_concat {α : Type} (xs : List α) (x d : α) :
    (xs ++ [x]).getD xs.length d = x := by
  rw [List.getD_append_right _ _ _ _ (le_refl _)]
  simp

/-- The byte range a fresh write records resolves, inside the sealed
pack, to exactly the appended ciphertext. -/
theorem sealPack_range (pre cip : List Nat) (es : List HeaderEntry) :
    ((sealPack (pre ++ cip) es).drop pre.length).take cip.length = cip := by
  have hform : sealPack (pre ++ cip) es
      = ((pre ++ cip) ++ headerCells es
          ++ [(headerCells es).sum, (headerCells es).length])
        ++ [((pre ++ cip) ++ headerCells es
          ++ [(headerCells es).sum, (headerCells es).length]).sum] := rfl
  rw [hform]
  simp only [List.append_assoc, List.drop_left]
  rw [List.take_left]

/-- Sealing with a non-empty open pack flushes it to the backend. -/
theorem sealOpen_of_ne (r : Repo) (h : r.openEntries.isEmpty = false) :
    r.sealOpen =
      { r with
        sealed := r.sealed ++ [sealPack r.openData r.openEntries]
        openData := []
        openEntries := [] } := by
  unfold Repo.sealOpen
  simp only [h]
  rfl

/-- A range read at the just-appended pack resolves inside that pack. -/
theorem rangeRead_last (tg : Nat) (sealed : List (List Nat))
    (obj od : List Nat) (oe : List HeaderEntry) (idx : List IndexEntry)
    (off len : Nat) :
    Repo.rangeRead ⟨tg, sealed ++ [obj], od, oe, idx⟩ sealed.length off len
      = some ((obj.drop off).take len) := by
  unfold Repo.rangeRead
  dsimp only
  split
  · rw [getD_concat]
  · next hcon =>
    exfalso
    apply hcon
    simp

/-- A range read at the open pack's ID resolves in the open buffer. -/
theorem rangeRead_open (tg : Nat) (sealed : List (List Nat))
    (od : List Nat) (oe : List HeaderEntry) (idx : List IndexEntry)
    (off len : Nat) :
    Repo.rangeRead ⟨tg, sealed, od, oe, idx⟩ sealed.length off len
      = some ((od.drop off).take len) := by
  unfold Repo.rangeRead
  dsimp only
  rw [if_neg (Nat.lt_irrefl _), if_pos rfl]

/-- C1: for every well-formed repository and every byte-string content,
a Write followed by a Read of the returned ID yields exactly the written
bytes — whether the Write dedups against an existing entry, lands in the
open pack, or triggers sealing of the open pack. -/
theorem write_read_roundtrip (r : Repo) (t : BlobType) (c : List Nat)
    (hwf : r.WF) (hc : ∀ b ∈ c, b < 256) :
    ((r.write t c).2).read t ((r.write t c).1) = .ok c := by
  rw [write_fst]
  rcases h : r.lookup t (idOf c) with _ | e
  · -- fresh write
    have h2 := h
    rw [Repo.lookup] at h2
    have hfind := lookup_append_entry r.index t (idOf c)
      ⟨idOf c, t, r.sealed.length, r.openData.length,
        (encryptBlob c).length⟩ rfl rfl h2
    simp only [Repo.write, h]
    split
    · -- the write triggered sealing of the open pack
      dsimp only
      rw [sealOpen_of_ne _ (isEmpty_concat r.openEntries
        ⟨idOf c, t, r.openData.length, (encryptBlob c).length⟩)]
      dsimp only
      simp only [Repo.read, Repo.lookup]
      rw [hfind]
      dsimp only
      rw [rangeRead_last]
      dsimp only
      rw [sealPack_range]
      rw [decryptBlob_encryptBlob]
    · -- the blob stays in the open pack
      dsimp only
      simp only [Repo.read, Repo.lookup]
      rw [hfind]
      dsimp only
      rw [rangeRead_open]
      dsimp only
      rw [List.drop_left]
      rw [List.take_length]
      rw [decryptBlob_encryptBlob]
  · -- dedup hit: the stored entry already holds the same bytes
    have hr2 : (r.write t c).2 = r :=
      congrArg Prod.snd (write_dedup_hit r t c e h)
    rw [hr2]
    have h2 := h
    rw [Repo.lookup] at h2
    have hmem : e ∈ r.index := List.mem_of_find?_eq_some h2
    have hpe : e.id = idOf c := by
      have := List.find?_some h2
      simp only [decide_eq_true_eq] at this
      exact this.1
    have hok := hwf.1 e hmem
    rw [entryOk] at hok
    simp only [Repo.read, h]
    rcases hrr : r.rangeRead e.packId e.offset e.length with _ | cipher
    · rw [hrr] at hok
      exact Bool.noConfusion hok
    · rw [hrr] at hok
      dsimp only at hok ⊢
      rcases hdec : decryptBlob cipher with _ | c2
      · rw [hdec] at hok
        exact Bool.noConfusion hok
      · rw [hdec] at hok
        dsimp only at hok ⊢
        simp only [Bool.and_eq_true, beq_iff_eq, List.all_eq_true,
          decide_eq_true_eq] at hok
        have hc2 : c2 = c := idOf_inj c2 c hok.2 hc (by rw [hok.1, hpe])
        rw [hc2]

/-- C1 witness: writing `[1, 2]` into the empty repository and reading
the returned ID back yields `[1, 2]`. -/
theorem write_read_roundtrip_witness :
    (((emptyRepo 10).write .data [1, 2]).2).read .data
      (((emptyRepo 10).write .data [1, 2]).1) = .ok [1, 2] :=
  write_read_roundtrip (emptyRepo 10) .data [1, 2] (by decide) (by decide)

/-- Rebuilding distributes over appending one pack to the backend. -/
theorem rebuildFrom_append (k : Nat) (xs : List (List Nat)) (obj : List Nat) :
    rebuildFrom k (xs ++ [obj]) =
      match rebuildFrom k xs with
      | none => none
      | some l =>
        match decodePack obj with
        | .error _ => none
        | .ok (es, _) =>
          some (l ++ es.map (fun e => e.withPack (k + xs.length))) := by
  induction xs generalizing k with
  | nil =>
    show rebuildFrom k [obj] = _
    unfold rebuildFrom
    rcases decodePack obj with e | ⟨es, rest⟩
    · rfl
    · simp [rebuildFrom]
  | cons x xs ih =>
    show rebuildFrom k (x :: (xs ++ [obj])) = _
    unfold rebuildFrom
    rcases decodePack x with e | ⟨es, rest⟩
    · rfl
    · rw [ih (k + 1)]
      rcases rebuildFrom (k + 1) xs with _ | l
      · rfl
      · rcases decodePack obj with e2 | ⟨es2, rest2⟩
        · rfl
        · dsimp only
          rw [List.append_assoc]
          rw [show k + 1 + xs.length = k + (x :: xs).length by
            simp [List.length_cons]; omega]

/-- C7: for every well-formed repository state, after committing the open
pack the index rebuilt from the sealed pack headers alone equals the
incrementally maintained in-memory index. -/
theorem rebuild_matches_incremental (r : Repo) (hwf : r.WF) :
    rebuildIndex ((r.sealOpen).sealed) = some ((r.sealOpen).index) := by
  rcases hwf with ⟨_, hreb, hopen⟩
  by_cases he : r.openEntries.isEmpty = true
  · have hid : r.sealOpen = r := by
      unfold Repo.sealOpen
      rw [if_pos he]
    rw [hid]
    have he2 : r.openEntries = [] := List.isEmpty_iff.mp he
    rw [he2] at hreb
    simp only [List.length_nil, Nat.sub_zero, List.take_length] at hreb
    exact hreb
  · have hne : r.openEntries.isEmpty = false := by
      rcases hb : r.openEntries.isEmpty
      · rfl
      · exact absurd hb he
    rw [sealOpen_of_ne r hne]
    dsimp only
    rw [rebuildIndex, rebuildFrom_append]
    rw [rebuildIndex] at hreb
    rw [hreb]
    dsimp only
    rw [decode_sealPack]
    dsimp only
    rw [Nat.zero_add]
    rw [← hopen]
    rw [List.take_append_drop]

/-- C7 witness: a concrete repository with one pending blob — after
sealing, the rebuilt index equals the maintained one. -/
theorem rebuild_matches_incremental_witness :
    rebuildIndex (((((emptyRepo 100).write .data [5]).2).sealOpen).sealed)
      = some (((((emptyRepo 100).write .data [5]).2).sealOpen).index) :=
  rebuild_matches_incremental (((emptyRepo 100).write .data [5]).2)
    (by decide)

/-- Zero-length lock objects are skipped while collecting locks. -/
theorem collectLocks_skip_empty (pre post : List (List Nat)) :
    collectLocks (pre ++ [] :: post) = collectLocks (pre ++ post) := by
  induction pre with
  | nil => rfl
  | cons x pre ih =>
    show collectLocks (x :: (pre ++ [] :: post))
      = collectLocks (x :: (pre ++ post))
    simp only [collectLocks]
    rw [ih]

/-- A non-empty, unparsable lock object anywhere in the list makes lock
collection fail with the unreadable-lock error. -/
theorem collectLocks_malformed (objs : List (List Nat)) (o : List Nat)
    (ho : o ∈ objs) (hne : o ≠ []) (hp : parseLock o = none) :
    collectLocks objs = .error .unreadableLock := by
  induction objs with
  | nil => cases ho
  | cons x rest ih =>
    rcases List.mem_cons.mp ho with rfl | hmem
    · unfold collectLocks
      rw [if_neg (fun hh => hne (List.isEmpty_iff.mp hh)), hp]
    · unfold collectLocks
      by_cases hx : x.isEmpty = true
      · rw [if_pos hx]
        exact ih hmem
      · rw [if_neg hx]
        rcases hpx : parseLock x with _ | lk
        · rfl
        · rw [ih hmem]

/-- C3: during lock acquisition a zero-length lock object is silently
ignored — the outcome is the same as if that object did not exist —
while a non-empty object that fails to parse surfaces the Fatal
unreadable-lock error, blocks the acquisition, and leaves every lock
object in place (nothing is auto-deleted). -/
theorem lock_read_error_classification :
    (∀ (pre post : List (List Nat)) (now staleAge : Nat) (nl : Lock),
      (acquireLock (pre ++ [] :: post) now staleAge nl).1
        = (acquireLock (pre ++ post) now staleAge nl).1)
    ∧ (∀ (objs : List (List Nat)) (o : List Nat) (now staleAge : Nat)
        (nl : Lock), o ∈ objs → o ≠ [] → parseLock o = none →
      acquireLock objs now staleAge nl = (.error .unreadableLock, objs)) := by
  constructor
  · intro pre post now staleAge nl
    unfold acquireLock
    rw [collectLocks_skip_empty]
    rcases collectLocks (pre ++ post) with e | ls
    · rfl
    · dsimp only
      rcases (ls.filter (isFresh now staleAge)).find?
          (conflictsWith nl.exclusive) with _ | other
      · rfl
      · rfl
  · intro objs o now staleAge nl ho hne hp
    unfold acquireLock
    rw [collectLocks_malformed objs o ho hne hp]

/-- C3 witness: a concrete malformed two-byte lock object blocks the
acquisition with the unreadable-lock error and is not deleted. -/
theorem lock_read_error_classification_witness :
    acquireLock [[1, 2]] 5 10 ⟨0, true, 0, 0, 0, 0⟩
      = (.error .unreadableLock, [[1, 2]]) :=
  lock_read_error_classification.2 [[1, 2]] [1, 2] 5 10
    ⟨0, true, 0, 0, 0, 0⟩ (by decide) (by decide) (by decide)

/-- Serialized lock objects parse back to themselves. -/
theorem parse_serialize (lk : Lock) : parseLock (serializeLock lk) = some lk := by
  rcases lk with ⟨t, e, h, u, p, l⟩
  cases e
  · rfl
  · rfl

/-- Collecting a list of well-formed lock objects yields the locks. -/
theorem collectLocks_map_serialize (locks : List Lock) :
    collectLocks (locks.map serializeLock) = .ok locks := by
  induction locks with
  | nil => rfl
  | cons lk rest ih =>
    show collectLocks (serializeLock lk :: rest.map serializeLock) = _
    unfold collectLocks
    rw [if_neg (fun hh => Bool.noConfusion hh), parse_serialize, ih]

/-- C4: an exclusive acquisition against well-formed lock objects fails
with a conflict error whenever some existing lock (shared or exclusive)
is still fresh, and succeeds as soon as every existing lock's age
exceeds the staleness threshold. -/
theorem exclusive_acquire_conflict (locks : List Lock) (now staleAge : Nat)
    (nl : Lock) (hex : nl.exclusive = true) :
    ((∃ lk ∈ locks, isFresh now staleAge lk = true) →
      ∃ other, (acquireLock (locks.map serializeLock) now staleAge nl).1
        = .error (.conflict other))
    ∧ ((∀ lk ∈ locks, isFresh now staleAge lk = false) →
      (acquireLock (locks.map serializeLock) now staleAge nl).1
        = .ok nl) := by
  constructor
  · rintro ⟨lk, hmem, hfresh⟩
    unfold acquireLock
    rw [collectLocks_map_serialize]
    dsimp only
    rcases hf : (locks.filter (isFresh now staleAge)).find?
        (conflictsWith nl.exclusive) with _ | other
    · exfalso
      have hmemf : lk ∈ locks.filter (isFresh now staleAge) :=
        List.mem_filter.mpr ⟨hmem, hfresh⟩
      apply List.find?_eq_none.mp hf lk hmemf
      rw [conflictsWith, hex]
      exact Bool.true_or _
    · exact ⟨other, rfl⟩
  · intro hall
    unfold acquireLock
    rw [collectLocks_map_serialize]
    dsimp only
    have hfilter : locks.filter (isFresh now staleAge) = [] :=
      List.filter_eq_nil_iff.mpr
        (fun lk hm => by rw [hall lk hm]; exact Bool.noConfusion)
    rw [hfilter]
    rfl

/-- C4 witness: a fresh shared lock blocks a concrete exclusive
acquisition with a conflict error. -/
theorem exclusive_acquire_conflict_witness :
    ∃ other, (acquireLock ([⟨0, false, 0, 0, 0, 0⟩].map serializeLock)
      0 5 ⟨0, true, 1, 1, 1, 1⟩).1 = .error (.conflict other) :=
  (exclusive_acquire_conflict [⟨0, false, 0, 0, 0, 0⟩] 0 5
    ⟨0, true, 1, 1, 1, 1⟩ rfl).1 (by decide)

/-- Feeding a concatenation of two buffers equals feeding them in
sequence: the streaming chunker is a homomorphism on buffers. -/
theorem feedChunk_append (p : ChunkParams) (st : ChunkState)
    (a b : List Nat) :
    feedChunk p st (a ++ b)
      = ((feedChunk p (feedChunk p st a).1 b).1,
         (feedChunk p st a).2
           ++ (feedChunk p (feedChunk p st a).1 b).2) := by
  induction a generalizing st with
  | nil => simp [feedChunk]
  | cons x a ih =>
    show feedChunk p st (x :: (a ++ b)) = _
    simp only [feedChunk]
    rw [ih]
    simp [List.append_assoc]

/-- Folding buffer segments through the chunker from any accumulator is
the same as feeding the concatenated stream. -/
theorem chunkRun_foldl (p : ChunkParams) (segs : List (List Nat)) :
    ∀ (st : ChunkState) (out : List Nat),
      segs.foldl
        (fun acc seg =>
          ((feedChunk p acc.1 seg).1, acc.2 ++ (feedChunk p acc.1 seg).2))
        (st, out)
      = ((feedChunk p st segs.flatten).1,
         out ++ (feedChunk p st segs.flatten).2) := by
  induction segs with
  | nil => intro st out; simp [feedChunk]
  | cons seg segs ih =>
    intro st out
    simp only [List.foldl_cons, List.flatten_cons]
    rw [feedChunk_append, ih]
    simp [List.append_assoc]

/-- C6: the chunker is deterministic — two runs over the same byte
stream with the same parameters produce identical chunk boundaries (and
identical final states), no matter how differently the stream is split
into buffer segments across the two runs. -/
theorem chunker_deterministic (p : ChunkParams)
    (segs1 segs2 : List (List Nat)) (h : segs1.flatten = segs2.flatten) :
    chunkRun p segs1 = chunkRun p segs2 := by
  unfold chunkRun
  rw [chunkRun_foldl, chunkRun_foldl, h]

/-- C6 witness: delivering the same five bytes as one buffer or as three
buffers yields identical boundaries. -/
theorem chunker_deterministic_witness :
    chunkRun ⟨2, 4, 1, 3, fun w => w.sum⟩ [[1, 2, 3, 4, 5]]
      = chunkRun ⟨2, 4, 1, 3, fun w => w.sum⟩ [[1, 2], [3], [4, 5]] :=
  chunker_deterministic ⟨2, 4, 1, 3, fun w => w.sum⟩
    [[1, 2, 3, 4, 5]] [[1, 2], [3], [4, 5]] (by decide)

end ResticSpec
